import Mathlib

/-!
Verification of the Mamdani fuzzy-tipping program (`src/main.cpp`).

The C++ source is shallowly embedded: `double` becomes `ℝ`, `std::string`
becomes `String` (with `List Char` for the index-walking scanner),
`std::map<string,double>` becomes `String → Option ℝ`, and undefined
behaviour (an out-of-bounds index, reading an uninitialized variable)
is modelled by a result of `none`.
-/

/-- Triangular membership function, from `triangmf` in `src/main.cpp`
(lines 26-50): a chain of `else if` branches over a result initialized
to zero. -/
noncomputable def triangmf (left center right x : ℝ) : ℝ :=
  if x ≤ left then 0
  else if x ≥ right then 0
  else if x > left ∧ x ≤ center then (x - left) / (center - left)
  else if x < right ∧ x > center then 1 - |(right - x) / (center - right)|
  else 0

/-- Trapezoidal membership function, from `trapmf` in `src/main.cpp`
(lines 55-82). -/
noncomputable def trapmf (lowLeft upLeft upRight lowRight x : ℝ) : ℝ :=
  if x ≤ lowLeft then 0
  else if x ≥ lowRight then 0
  else if x > lowLeft ∧ x ≤ upLeft then (x - lowLeft) / (upLeft - lowLeft)
  else if x > upLeft ∧ x ≤ upRight then 1
  else if x > upRight ∧ x < lowRight then 1 - |(upRight - x) / (lowRight - upRight)|
  else 0

/-- Saturation membership function, from `satmf` in `src/main.cpp`
(lines 87-121): the direction of the ramp is chosen by comparing `up`
with `down`. -/
noncomputable def satmf (up down x : ℝ) : ℝ :=
  if up < down then
    if x ≤ up then 1
    else if x ≥ down then 0
    else 1 - |(up - x) / (down - up)|
  else
    if x ≥ up then 1
    else if x ≤ down then 0
    else (x - down) / (up - down)

/-- Gaussian membership function, from `gaussianmf` in `src/main.cpp`
(lines 126-136). -/
noncomputable def gaussianmf (center width x : ℝ) : ℝ :=
  Real.exp (-(((x - center) / Real.sqrt (2 * width)) ^ 2))

/-- Two-argument fuzzy AND, from `fAnd(double, double)` in `src/main.cpp`
(lines 162-166). -/
noncomputable def fAnd (a b : ℝ) : ℝ := min a b

/-- Two-argument fuzzy OR, from `fOr(double, double)` in `src/main.cpp`
(lines 191-195). -/
noncomputable def fOr (a b : ℝ) : ℝ := max a b

/-- C++ `double`-to-`int` conversion: truncation toward zero. -/
noncomputable def truncToInt (x : ℝ) : ℤ := if 0 ≤ x then ⌊x⌋ else ⌈x⌉

/-- Vector-form fuzzy AND, from `fAnd(vector<double>&)` in `src/main.cpp`
(lines 142-158).  The running minimum is declared `int`, so both its
initialization from `args.front()` and every assignment `minimum = args[i]`
truncate toward zero; the comparison `minimum > args[i]` promotes the
stored `int` back to `double`.  The C++ loop starts at index 0, so it
revisits the front element; `args.front()` on an empty vector is undefined,
so the theorems below assume a non-empty list. -/
noncomputable def fAndVec (args : List ℝ) : ℝ :=
  ((args.foldl (fun mn a => if (mn : ℝ) > a then truncToInt a else mn)
      (truncToInt args.headI) : ℤ) : ℝ)

/-- Types of membership functions, from `enum MFType` in `src/main.cpp`. -/
inductive MFType
  | TRIANG
  | TRAP
  | SAT
  | GAUSS
deriving DecidableEq

/-- An input fuzzy set: name, membership-function type and parameter list,
from class `InputFuzzySet` in `src/main.cpp`. -/
structure InputFuzzySet where
  name : String
  type : MFType
  params : List ℝ

/-- `InputFuzzySet::eval` from `src/main.cpp` (lines 263-291): dispatch on
the stored type; each case is guarded by an exact `params.size()` check and
`res` stays 0 when the guard fails. -/
noncomputable def InputFuzzySet.eval (s : InputFuzzySet) (x : ℝ) : ℝ :=
  match s.type with
  | .TRIANG =>
      if s.params.length = 3 then
        triangmf (s.params.getD 0 0) (s.params.getD 1 0) (s.params.getD 2 0) x
      else 0
  | .TRAP =>
      if s.params.length = 4 then
        trapmf (s.params.getD 0 0) (s.params.getD 1 0) (s.params.getD 2 0)
          (s.params.getD 3 0) x
      else 0
  | .SAT =>
      if s.params.length = 2 then
        satmf (s.params.getD 0 0) (s.params.getD 1 0) x
      else 0
  | .GAUSS =>
      if s.params.length = 2 then
        gaussianmf (s.params.getD 0 0) (s.params.getD 1 0) x
      else 0

/-- The exact parameter count demanded by each `case` of
`InputFuzzySet::eval` before it calls the membership function. -/
def mfArity : MFType → ℕ
  | .TRIANG => 3
  | .TRAP => 4
  | .SAT => 2
  | .GAUSS => 2

/-- An output fuzzy set, from class `OutputFuzzySet` in `src/main.cpp`:
name, type and parameters; its `eval` is a stub returning 0. -/
structure OutputFuzzySet where
  name : String
  type : MFType
  params : List ℝ

/-- `OutputFuzzySet::eval` from `src/main.cpp` (lines 337-341). -/
def OutputFuzzySet.eval (_s : OutputFuzzySet) (_x : ℝ) : ℝ := 0

/-- Scanner state of `Rules::inferMamdani`'s per-rule loop in
`src/main.cpp` (lines 385-386): the two connector flags and the
accumulator. -/
structure ScanSt where
  andFlag : Bool
  orFlag : Bool
  accum : ℝ

/-- One token of the antecedent scan, from `src/main.cpp` lines 399-425:
`AND`/`and` and `OR`/`or` set the pending flags; any other token is looked
up in the degree map; a hit combines with the accumulator under the pending
flag (AND checked first, and only the fired flag is cleared), a miss leaves
the whole state unchanged. -/
noncomputable def stepTok (m : String → Option ℝ) (st : ScanSt) (tok : String) : ScanSt :=
  if tok = "AND" ∨ tok = "and" then ⟨true, st.orFlag, st.accum⟩
  else if tok = "OR" ∨ tok = "or" then ⟨st.andFlag, true, st.accum⟩
  else
    match m tok with
    | some v =>
        if st.andFlag then ⟨false, st.orFlag, fAnd v st.accum⟩
        else if st.orFlag then ⟨st.andFlag, false, fOr v st.accum⟩
        else ⟨st.andFlag, st.orFlag, v⟩
    | none => st

/-- The inner character loop `while (rule[j] != ' ')` of `src/main.cpp`
(lines 392-395), reading one token from the remaining characters and
returning the characters after the separating space (the code then does
`j++` past it).  Falling off the end of the list models the C++ scan
walking past the string: `rule[size()]` yields the defined `'\0'` (which is
not a space, so the loop keeps going) and the next access `rule[j]` with
`j > size()` is out of bounds — modelled as `none`. -/
def readTok2 : List Char → Option (List Char × List Char)
  | [] => none
  | c :: rest =>
    if c = ' ' then some ([], rest)
    else (readTok2 rest).map fun q => (c :: q.1, q.2)

/-- The outer loop `while (fuzzySetName != "THEN" && ...)` of
`src/main.cpp` (lines 389-428).  Note the loop condition is tested after
the token has already been processed, so the `THEN` token itself passes
through `stepTok`.  The fuel only bounds the recursion; every call below
supplies enough fuel for the loop to finish on its own. -/
noncomputable def scanAux (m : String → Option ℝ) : ℕ → ScanSt → List Char → Option (ScanSt × List Char)
  | 0, _, _ => none
  | fuel + 1, st, l =>
    match readTok2 l with
    | none => none
    | some (t, rest) =>
      if String.mk t = "THEN" ∨ String.mk t = "then" then
        some (stepTok m st (String.mk t), rest)
      else scanAux m fuel (stepTok m st (String.mk t)) rest

/-- Evaluation of a single rule line by `Rules::inferMamdani`
(`src/main.cpp` lines 377-442): scanning starts unconditionally at index
`j = 3`, and after `THEN` the rest of the line is copied verbatim as the
consequent name; the pair inserted into the multimap is (consequent,
accumulator). -/
noncomputable def evalRule (m : String → Option ℝ) (rule : String) : Option (String × ℝ) :=
  match scanAux m (rule.length + 1) ⟨false, false, 0⟩ (rule.data.drop 3) with
  | none => none
  | some (st, rest) => some (String.mk rest, st.accum)

/-- The `for` loop over all stored rules (`src/main.cpp` line 377),
collecting each rule's (consequent, firing strength) pair. -/
noncomputable def evalRules (m : String → Option ℝ) : List String → Option (List (String × ℝ))
  | [] => some []
  | r :: rs =>
    match evalRule m r with
    | none => none
    | some p => (evalRules m rs).map fun ps => p :: ps

/-- One iteration of the aggregation loop of `src/main.cpp`
(lines 450-462): on a key change reset the running maximum, then fold in
the current value and write `output[currentSet] = maximum`. -/
noncomputable def aggStep (st : String × ℝ × (String → Option ℝ)) (p : String × ℝ) : String × ℝ × (String → Option ℝ) :=
  let cur := if p.1 ≠ st.1 then p.1 else st.1
  let mx0 := if p.1 ≠ st.1 then 0 else st.2.1
  let mx := max mx0 p.2
  (cur, mx, fun k => if k = cur then some mx else st.2.2 k)

/-- The aggregation loop run from its initial state
(`currentSet = ""`, `maximum = 0`, empty `output`). -/
noncomputable def aggFold (pairs : List (String × ℝ)) : String × ℝ × (String → Option ℝ) :=
  pairs.foldl aggStep (("") , 0, fun _ => none)

/-- The final unconditional `output[currentSet] = maximum;` of
`src/main.cpp` (line 465) followed by lookup in the returned map. -/
noncomputable def aggLookup (st : String × ℝ × (String → Option ℝ)) : String → Option ℝ :=
  fun k => if k = st.1 then some st.2.1 else st.2.2 k

/-- The rule results are inserted into a `std::multimap`, whose iteration
order is sorted by key; values with equal keys keep a fixed relative order
that the max-aggregation does not depend on. -/
noncomputable def sortPairs (pairs : List (String × ℝ)) : List (String × ℝ) :=
  List.insertionSort (fun p q : String × ℝ => p.1 ≤ q.1) pairs

/-- `Rules::inferMamdani` from `src/main.cpp` (lines 372-468): evaluate
every rule, then aggregate the per-rule firing strengths through the
sorted multimap loop.  A `none` result records that some rule scan ran
out of bounds (undefined behaviour in the C++). -/
noncomputable def inferMamdani (m : String → Option ℝ) (rules : List String) : Option (String → Option ℝ) :=
  match evalRules m rules with
  | none => none
  | some pairs => some (aggLookup (aggFold (sortPairs pairs)))

/-- Antecedent connectors of the rule mini-language. -/
inductive Conn
  | AND
  | OR
deriving DecidableEq

/-- Surface token of a connector. -/
def connTok : Conn → String
  | .AND => "AND"
  | .OR => "OR"

/-- Encode a token list as characters, each token followed by one space. -/
def encToks : List String → List Char
  | [] => []
  | t :: ts => t.data ++ ' ' :: encToks ts

/-- A rule line whose tokens are separated by single spaces after the
leading `IF `: the antecedent tokens, then `THEN`, then the consequent. -/
def mkRule (toks : List String) (out : String) : String :=
  String.mk (("IF ").data ++ (encToks (toks ++ ["THEN"]) ++ out.data))

/-- The surface tokens of a connector/term antecedent tail: each pair
contributes its connector token followed by its term token (the term's
degree rides along for the statement of C1). -/
def pairToks : List (Conn × String × ℝ) → List String
  | [] => []
  | q :: qs => connTok q.1 :: q.2.1 :: pairToks qs

/-- A token the scanner reads as one unit and does not stop at: it has no
space and is not the (case-sensitive) stop keyword. -/
def GoodTok (t : String) : Prop :=
  (∀ c ∈ t.data, c ≠ ' ') ∧ t ≠ "THEN" ∧ t ≠ "then"

instance (t : String) : Decidable (GoodTok t) := by
  unfold GoodTok
  infer_instance

/-- `list₁` starts with `list₂`as a prefix check used by `strHasSub`. -/
def listStartsWith : List Char → List Char → Bool
  | [], _ => true
  | _ :: _, [] => false
  | a :: as, b :: bs => a = b && listStartsWith as bs

/-- `needle` occurs as a contiguous substring: the model of
`std::string::find(...) != npos` used in `src/main.cpp` line 589. -/
def strHasSub (needle : List Char) : List Char → Bool
  | [] => listStartsWith needle []
  | c :: rest => listStartsWith needle (c :: rest) || strHasSub needle rest

/-- The number of parameters selected from the shape keyword,
`src/main.cpp` lines 527-534. -/
def shapeNumParams (mfTypeStr : String) : ℕ :=
  if mfTypeStr = "TRIANG" then 3
  else if mfTypeStr = "TRAP" then 4
  else if mfTypeStr = "SAT" then 2
  else if mfTypeStr = "GAUSS" then 2
  else 0

/-- The shape tag selected from the keyword, `src/main.cpp` lines 577-585;
an unknown keyword leaves the C++ `mfType` uninitialized, modelled as
`none`. -/
def shapeType (mfTypeStr : String) : Option MFType :=
  if mfTypeStr = "TRIANG" then some MFType.TRIANG
  else if mfTypeStr = "TRAP" then some MFType.TRAP
  else if mfTypeStr = "SAT" then some MFType.SAT
  else if mfTypeStr = "GAUSS" then some MFType.GAUSS
  else none

/-- The `switch (numParams)` of `src/main.cpp` (lines 537-574): read the
remaining parameters from the rest of the line; any failed extraction
leaves the parameter vector empty (processing still continues). -/
def parseParams (parseD : String → Option ℝ) (param1 : ℝ) (numParams : ℕ) (rest : List String) : List ℝ :=
  match numParams, rest with
  | 3, p2 :: p3 :: _ =>
    (match parseD p2, parseD p3 with
     | some v2, some v3 => [param1, v2, v3]
     | _, _ => [])
  | 4, p2 :: p3 :: p4 :: _ =>
    (match parseD p2, parseD p3, parseD p4 with
     | some v2, some v3, some v4 => [param1, v2, v3, v4]
     | _, _, _ => [])
  | 2, p2 :: _ =>
    (match parseD p2 with
     | some v2 => [param1, v2]
     | none => [])
  | _, _ => []

/-- Processing of one definition-file line by `readFuzzySetsFromFile`
(`src/main.cpp` lines 511-603).  The line is given as its
whitespace-separated tokens and `parseD` is the `double` extraction.  The
guard `iss >> setName >> mfTypeStr >> param1` requires at least three
tokens with the third parsing as a number; otherwise the line is skipped
entirely.  Classification into output vs input sets is by the `"Tip"`
substring test on the set name. -/
def processLine (parseD : String → Option ℝ) (inputSets : List InputFuzzySet) (outputSets : List OutputFuzzySet) : List String → Option (List InputFuzzySet × List OutputFuzzySet)
  | setName :: mfTypeStr :: p1 :: rest =>
    (match parseD p1 with
     | none => some (inputSets, outputSets)
     | some param1 =>
       let params := parseParams parseD param1 (shapeNumParams mfTypeStr) rest
       match shapeType mfTypeStr with
       | none => none
       | some mfType =>
         if strHasSub (("Tip").data) setName.data then
           some (inputSets, outputSets ++ [⟨setName, mfType, params⟩])
         else
           some (inputSets ++ [⟨setName, mfType, params⟩], outputSets))
  | _ => some (inputSets, outputSets)

/-- The line loop of `readFuzzySetsFromFile`. -/
def readFuzzySetsAux (parseD : String → Option ℝ) : List (List String) → List InputFuzzySet × List OutputFuzzySet → Option (List InputFuzzySet × List OutputFuzzySet)
  | [], st => some st
  | line :: ls, st =>
    match processLine parseD st.1 st.2 line with
    | none => none
    | some st' => readFuzzySetsAux parseD ls st'

/-- `readFuzzySetsFromFile` from `src/main.cpp` (lines 502-605), starting
from empty input/output collections. -/
def readFuzzySetsFromFile (parseD : String → Option ℝ) (lines : List (List String)) : Option (List InputFuzzySet × List OutputFuzzySet) :=
  readFuzzySetsAux parseD lines ([], [])

/-- Degree map of the worked example in C1. -/
noncomputable def mC1 : String → Option ℝ :=
  fun s =>
    if s = "A" then some 0.2
    else if s = "B" then some 0.9
    else if s = "C" then some 0.4
    else none

/-- Degree map for the C3 witness: only `B` has a degree. -/
noncomputable def mC3 : String → Option ℝ :=
  fun s => if s = "B" then some 0.7 else none

/-- Degree map for the C2 witness. -/
noncomputable def mC2w : String → Option ℝ :=
  fun s =>
    if s = "A" then some 0.3
    else if s = "B" then some 0.6
    else none

/-- Rule list for the C2 witness. -/
def rulesC2w : List String := ["IF A THEN Tip_Low", "IF B THEN Tip_Low"]

/-- The same rules supplied in the opposite order. -/
def rulesC2w' : List String := ["IF B THEN Tip_Low", "IF A THEN Tip_Low"]

/-- The rule results of `rulesC2w` under `mC2w`. -/
noncomputable def pairsC2w : List (String × ℝ) :=
  [(("Tip_Low"), 0.3), (("Tip_Low"), 0.6)]

instance : IsTotal (String × ℝ) (fun p q : String × ℝ => p.1 ≤ q.1) :=
  ⟨fun a b => le_total a.1 b.1⟩

instance : IsTrans (String × ℝ) (fun p q : String × ℝ => p.1 ≤ q.1) :=
  ⟨fun _ _ _ h₁ h₂ => le_trans h₁ h₂⟩

/- ===================== Theorems ===================== -/

/-- Structure eta for strings: rebuilding a string from its characters is
the identity. -/
theorem strMk_data (s : String) : String.mk s.data = s := rfl

/-- C8: for well-ordered parameters every membership function except the
Gaussian returns a value in [0,1]; the Gaussian with positive width returns
a value in (0,1], and exactly 1 at the center. -/
theorem mf_range_property :
    (∀ l c r x : ℝ, l < c → c < r →
      0 ≤ triangmf l c r x ∧ triangmf l c r x ≤ 1) ∧
    (∀ a b c d x : ℝ, a < b → b ≤ c → c < d →
      0 ≤ trapmf a b c d x ∧ trapmf a b c d x ≤ 1) ∧
    (∀ u d x : ℝ, 0 ≤ satmf u d x ∧ satmf u d x ≤ 1) ∧
    (∀ c w x : ℝ, 0 < w →
      0 < gaussianmf c w x ∧ gaussianmf c w x ≤ 1 ∧ gaussianmf c w c = 1) := by
  refine ⟨?_, ?_, ?_, ?_⟩
  · intro l c r x hlc hcr
    unfold triangmf
    split_ifs with h1 h2 h3 h4
    · exact ⟨le_refl 0, zero_le_one⟩
    · exact ⟨le_refl 0, zero_le_one⟩
    · constructor
      · exact div_nonneg (by linarith [h3.1]) (by linarith)
      · rw [div_le_one (by linarith)]
        linarith [h3.2]
    · have habs : |(r - x) / (c - r)| = (r - x) / (r - c) := by
        rw [abs_div, abs_of_pos (by linarith [h4.1] : (0:ℝ) < r - x),
          abs_of_neg (by linarith : c - r < 0)]
        ring_nf
      rw [habs]
      constructor
      · have : (r - x) / (r - c) ≤ 1 := by
          rw [div_le_one (by linarith)]
          linarith [h4.2]
        linarith
      · have : 0 ≤ (r - x) / (r - c) :=
          div_nonneg (by linarith [h4.1]) (by linarith)
        linarith
    · exact ⟨le_refl 0, zero_le_one⟩
  · intro a b c d x hab hbc hcd
    unfold trapmf
    split_ifs with h1 h2 h3 h4 h5
    · exact ⟨le_refl 0, zero_le_one⟩
    · exact ⟨le_refl 0, zero_le_one⟩
    · constructor
      · exact div_nonneg (by linarith [h3.1]) (by linarith)
      · rw [div_le_one (by linarith)]
        linarith [h3.2]
    · exact ⟨zero_le_one, le_refl 1⟩
    · have habs : |(c - x) / (d - c)| = (x - c) / (d - c) := by
        rw [abs_div, abs_of_neg (by linarith [h5.1] : c - x < 0),
          abs_of_pos (by linarith : (0:ℝ) < d - c)]
        ring_nf
      rw [habs]
      constructor
      · have : (x - c) / (d - c) ≤ 1 := by
          rw [div_le_one (by linarith)]
          linarith [h5.2]
        linarith
      · have : 0 ≤ (x - c) / (d - c) :=
          div_nonneg (by linarith [h5.1]) (by linarith)
        linarith
    · exact ⟨le_refl 0, zero_le_one⟩
  · intro u d x
    unfold satmf
    split_ifs with h1 h2 h3 h4 h5
    · exact ⟨zero_le_one, le_refl 1⟩
    · exact ⟨le_refl 0, zero_le_one⟩
    · have habs : |(u - x) / (d - u)| = (x - u) / (d - u) := by
        rw [abs_div, abs_of_neg (by linarith : u - x < 0),
          abs_of_pos (by linarith : (0:ℝ) < d - u)]
        ring_nf
      rw [habs]
      constructor
      · have : (x - u) / (d - u) ≤ 1 := by
          rw [div_le_one (by linarith)]
          linarith
        linarith
      · have : 0 ≤ (x - u) / (d - u) :=
          div_nonneg (by linarith) (by linarith)
        linarith
    · exact ⟨zero_le_one, le_refl 1⟩
    · exact ⟨le_refl 0, zero_le_one⟩
    · have hdu : d < u := by
        rcases lt_or_eq_of_le (not_lt.mp h1) with h | h
        · exact h
        · exfalso
          apply h4
          have hx : d < x := not_le.mp h5
          linarith
      constructor
      · exact div_nonneg (by linarith [not_le.mp h5]) (by linarith)
      · rw [div_le_one (by linarith)]
        linarith [not_le.mp h4]
  · intro c w x hw
    refine ⟨Real.exp_pos _, ?_, ?_⟩
    · rw [gaussianmf, Real.exp_le_one_iff]
      exact neg_nonpos.mpr (sq_nonneg _)
    · rw [gaussianmf, sub_self, zero_div, zero_pow (by norm_num), neg_zero,
        Real.exp_zero]

/-- Witness for C8 at concrete parameters and sample points. -/
theorem mf_range_property_witness :
    (0 ≤ triangmf 0 50 100 30 ∧ triangmf 0 50 100 30 ≤ 1) ∧
    (0 ≤ trapmf 0 25 75 100 50 ∧ trapmf 0 25 75 100 50 ≤ 1) ∧
    (0 ≤ satmf 0 50 10 ∧ satmf 0 50 10 ≤ 1) ∧
    (0 < gaussianmf 50 10 60 ∧ gaussianmf 50 10 60 ≤ 1 ∧
      gaussianmf 50 10 50 = 1) :=
  ⟨mf_range_property.1 0 50 100 30 (by norm_num) (by norm_num),
   mf_range_property.2.1 0 25 75 100 50 (by norm_num) (by norm_num) (by norm_num),
   mf_range_property.2.2.1 0 50 10,
   (mf_range_property.2.2.2 50 10 60 (by norm_num)).1,
   (mf_range_property.2.2.2 50 10 60 (by norm_num)).2.1,
   (mf_range_property.2.2.2 50 10 50 (by norm_num)).2.2⟩

/-- C5 counterexample: the claim asserts `satmf 50 100` is a rising ramp
with `satmf 50 100 0 = 0`, but since `up = 50 < down = 100` the code takes
the `up < down` branch and `x = 0 ≤ up` yields 1. -/
theorem satmf_direction_counterexample : satmf 50 100 0 = 1 := by
  unfold satmf
  norm_num

/-- C5 amended: `satmf 0 50` is a falling ramp with the claimed boundary
values, and `satmf 50 100` also takes the `up < down` (falling) branch, so
it is 1 at both sample points `x = 50` and `x = 0`, not 0 at `x = 0`. -/
theorem satmf_direction_amended :
    satmf 0 50 0 = 1 ∧ satmf 0 50 50 = 0 ∧
    satmf 50 100 50 = 1 ∧ satmf 50 100 0 = 1 := by
  refine ⟨?_, ?_, ?_, ?_⟩ <;> (unfold satmf; norm_num)

/-- C9: whenever the stored parameter list does not have the exact arity
demanded by the shape tag, `InputFuzzySet::eval` returns 0 for every input
rather than failing. -/
theorem eval_arity_mismatch (s : InputFuzzySet)
    (h : s.params.length ≠ mfArity s.type) :
    ∀ x : ℝ, s.eval x = 0 := by
  intro x
  rcases s with ⟨n, t, ps⟩
  cases t <;>
    simp only [mfArity] at h <;>
    simp [InputFuzzySet.eval, h]

/-- Witness for C9: a triangular set with only two parameters evaluates
to 0. -/
theorem eval_arity_mismatch_witness :
    (InputFuzzySet.mk ("Bad") MFType.TRIANG [0, 1]).params.length ≠
      mfArity (InputFuzzySet.mk ("Bad") MFType.TRIANG [0, 1]).type ∧
    (InputFuzzySet.mk ("Bad") MFType.TRIANG [0, 1]).eval 5 = 0 :=
  ⟨by simp [mfArity], eval_arity_mismatch _ (by simp [mfArity]) 5⟩

/-- C10 counterexample: on the vector `[0]` (non-empty, all entries in
[0,1)) the vector-form AND returns 0, which *is* the minimum, so it does
not disagree with the two-argument `fAnd` fold there — refuting the
claim's "disagrees on all such inputs". -/
theorem fAndVec_counterexample :
    fAndVec [(0 : ℝ)] = List.foldl fAnd (List.headI [(0 : ℝ)]) [(0 : ℝ)] := by
  simp [fAndVec, fAnd, truncToInt]

/-- C10 amended: for every non-empty vector of degrees in [0,1) the
vector-form AND returns 0 (the `int` accumulator truncates the first
degree to zero and no later degree compares smaller); consequently it
disagrees with the two-argument min fold exactly when that fold is
non-zero. -/
theorem fAndVec_int_truncation (args : List ℝ) (hne : args ≠ [])
    (h : ∀ a ∈ args, 0 ≤ a ∧ a < 1) :
    fAndVec args = 0 ∧
      (args.foldl fAnd args.headI ≠ 0 →
        fAndVec args ≠ args.foldl fAnd args.headI) := by
  have hloop : ∀ l : List ℝ, (∀ a ∈ l, 0 ≤ a) →
      l.foldl (fun (mn : ℤ) (a : ℝ) => if (mn : ℝ) > a then truncToInt a else mn) 0 = 0 := by
    intro l
    induction l with
    | nil => intro _; rfl
    | cons b t ih =>
      intro hb
      rw [List.foldl_cons]
      have h0 : ¬ ((((0 : ℤ) : ℝ)) > b) := by
        push_neg
        simpa using hb b (List.mem_cons_self b t)
      rw [if_neg h0]
      exact ih fun a ha => hb a (List.mem_cons_of_mem b ha)
  have hmain : fAndVec args = 0 := by
    rcases args with _ | ⟨a, rest⟩
    · exact absurd rfl hne
    · have ha := h a (List.mem_cons_self a rest)
      have htr : truncToInt (List.headI (a :: rest)) = 0 := by
        simp only [List.headI, truncToInt, if_pos ha.1]
        exact Int.floor_eq_zero_iff.mpr ⟨ha.1, ha.2⟩
      unfold fAndVec
      rw [htr, hloop (a :: rest) fun b hb => (h b hb).1]
      norm_num
  exact ⟨hmain, fun hne' heq => hne' (heq ▸ hmain)⟩

/-- Witness for C10's amended statement on the vector `[1/2]`. -/
theorem fAndVec_int_truncation_witness :
    (([(1 : ℝ)/2] : List ℝ) ≠ [] ∧ ∀ a ∈ [(1 : ℝ)/2], 0 ≤ a ∧ a < 1) ∧
    fAndVec [(1 : ℝ)/2] = 0 :=
  ⟨⟨by simp, by
      intro a ha
      rw [List.mem_singleton] at ha
      subst ha
      constructor <;> norm_num⟩,
    (fAndVec_int_truncation _ (by simp) (by
      intro a ha
      rw [List.mem_singleton] at ha
      subst ha
      constructor <;> norm_num)).1⟩

/-- C7 counterexample: reading a file consisting of the single bare-name
line `Tip_Low` yields empty input *and* output collections — the
extraction `iss >> setName >> mfTypeStr >> param1` fails on a one-token
line, so no output fuzzy set is defined, contrary to the claim. -/
theorem bare_name_line_counterexample :
    readFuzzySetsFromFile (fun _ => none) [[("Tip_Low")]] = some ([], []) := rfl

/-- C7 amended: a definition-file line containing only a set name (no
shape keyword, no parameters) is skipped entirely by
`readFuzzySetsFromFile`: the three-way extraction fails and neither
collection changes, for any parser and any starting collections. -/
theorem bare_name_line_amended (parseD : String → Option ℝ)
    (ins : List InputFuzzySet) (outs : List OutputFuzzySet) (name : String) :
    processLine parseD ins outs [name] = some (ins, outs) := rfl

/-- Reading one space-free token: the inner character loop consumes the
token and stops at the following space. -/
theorem readTok2_append (t rest : List Char) (ht : ∀ c ∈ t, c ≠ ' ') :
    readTok2 (t ++ ' ' :: rest) = some (t, rest) := by
  induction t with
  | nil => simp [readTok2]
  | cons c cs ih =>
    have hc : c ≠ ' ' := ht c (List.mem_cons_self c cs)
    have ih' := ih fun d hd => ht d (List.mem_cons_of_mem c hd)
    simp [readTok2, hc, ih']

/-- One unfolding step of the outer scan when a token read succeeds. -/
theorem scanAux_one (m : String → Option ℝ) (fuel : ℕ) (st : ScanSt)
    (t rest l : List Char) (hl : readTok2 l = some (t, rest)) :
    scanAux m (fuel + 1) st l =
      if String.mk t = "THEN" ∨ String.mk t = "then" then
        some (stepTok m st (String.mk t), rest)
      else scanAux m fuel (stepTok m st (String.mk t)) rest := by
  simp only [scanAux, hl]

/-- The outer scan over an encoded token list: it applies `stepTok` to
every token in order, processes the `THEN` token itself, and returns the
remaining characters as the consequent. -/
theorem scanAux_encode (m : String → Option ℝ) (toks : List String) :
    ∀ (st : ScanSt) (fuel : ℕ) (out : String),
      (∀ t ∈ toks, GoodTok t) →
      (encToks (toks ++ ["THEN"]) ++ out.data).length < fuel →
      scanAux m fuel st (encToks (toks ++ ["THEN"]) ++ out.data) =
        some (stepTok m (toks.foldl (stepTok m) st) ("THEN"), out.data) := by
  induction toks with
  | nil =>
    intro st fuel out _ hfuel
    cases fuel with
    | zero => exact absurd hfuel (by omega)
    | succ f =>
      have henc : encToks (([] : List String) ++ ["THEN"]) ++ out.data =
          ("THEN").data ++ ' ' :: out.data := by
        simp [encToks]
      rw [henc]
      have hrt : readTok2 (("THEN").data ++ ' ' :: out.data) =
          some (("THEN").data, out.data) :=
        readTok2_append _ _ (by decide)
      rw [scanAux_one m f st _ _ _ hrt, strMk_data]
      rw [if_pos (Or.inl rfl), List.foldl_nil]
  | cons t ts ih =>
    intro st fuel out hg hfuel
    cases fuel with
    | zero => exact absurd hfuel (by omega)
    | succ f =>
      have hgt : GoodTok t := hg t (List.mem_cons_self t ts)
      have henc : encToks ((t :: ts) ++ ["THEN"]) ++ out.data =
          t.data ++ ' ' :: (encToks (ts ++ ["THEN"]) ++ out.data) := by
        simp [encToks]
      rw [henc] at hfuel ⊢
      have hrt : readTok2 (t.data ++ ' ' :: (encToks (ts ++ ["THEN"]) ++ out.data)) =
          some (t.data, encToks (ts ++ ["THEN"]) ++ out.data) :=
        readTok2_append _ _ hgt.1
      rw [scanAux_one m f st _ _ _ hrt, strMk_data]
      have hne : ¬ (t = "THEN" ∨ t = "then") := by
        rintro (h | h)
        · exact hgt.2.1 h
        · exact hgt.2.2 h
      rw [if_neg hne]
      have hfuel' : (encToks (ts ++ ["THEN"]) ++ out.data).length < f := by
        rw [List.length_append, List.length_cons] at hfuel
        omega
      rw [ih (stepTok m st t) f out (fun u hu => hg u (List.mem_cons_of_mem t hu)) hfuel']
      rw [List.foldl_cons]

/-- Evaluating an encoded rule: scanning starts after `IF `, folds
`stepTok` over the antecedent tokens (and the `THEN` token), and captures
the consequent verbatim. -/
theorem evalRule_mkRule (m : String → Option ℝ) (toks : List String)
    (out : String) (hg : ∀ t ∈ toks, GoodTok t) :
    evalRule m (mkRule toks out) =
      some (out, (stepTok m (toks.foldl (stepTok m) ⟨false, false, 0⟩) ("THEN")).accum) := by
  have hdrop : (mkRule toks out).data.drop 3 = encToks (toks ++ ["THEN"]) ++ out.data := rfl
  have hlen : (mkRule toks out).length =
      3 + (encToks (toks ++ ["THEN"]) ++ out.data).length := by
    show (("IF ").data ++ (encToks (toks ++ ["THEN"]) ++ out.data)).length = _
    rw [List.length_append]
    rfl
  have hfuel : (encToks (toks ++ ["THEN"]) ++ out.data).length <
      (mkRule toks out).length + 1 := by
    rw [hlen]
    omega
  unfold evalRule
  rw [hdrop, scanAux_encode m toks ⟨false, false, 0⟩ _ out hg hfuel]

/-- A non-connector token with no recorded degree leaves the whole scan
state unchanged. -/
theorem stepTok_unknown (m : String → Option ℝ) (st : ScanSt) (u : String)
    (huc : u ≠ "AND" ∧ u ≠ "and" ∧ u ≠ "OR" ∧ u ≠ "or")
    (hm : m u = none) :
    stepTok m st u = st := by
  simp [stepTok, hm, huc.1, huc.2.1, huc.2.2.1, huc.2.2.2]

/-- A first term (no pending flag) loads its degree directly. -/
theorem stepTok_first (m : String → Option ℝ) (a : ℝ) (t : String) (d : ℝ)
    (hc : t ≠ "AND" ∧ t ≠ "and" ∧ t ≠ "OR" ∧ t ≠ "or")
    (hm : m t = some d) :
    stepTok m ⟨false, false, a⟩ t = ⟨false, false, d⟩ := by
  simp [stepTok, hm, hc.1, hc.2.1, hc.2.2.1, hc.2.2.2]

/-- A term under a pending AND flag combines by `min` and clears the
flag. -/
theorem stepTok_and (m : String → Option ℝ) (a : ℝ) (t : String) (d : ℝ)
    (hc : t ≠ "AND" ∧ t ≠ "and" ∧ t ≠ "OR" ∧ t ≠ "or")
    (hm : m t = some d) :
    stepTok m ⟨true, false, a⟩ t = ⟨false, false, min d a⟩ := by
  simp [stepTok, hm, hc.1, hc.2.1, hc.2.2.1, hc.2.2.2, fAnd]

/-- A term under a pending OR flag combines by `max` and clears the
flag. -/
theorem stepTok_or (m : String → Option ℝ) (a : ℝ) (t : String) (d : ℝ)
    (hc : t ≠ "AND" ∧ t ≠ "and" ∧ t ≠ "OR" ∧ t ≠ "or")
    (hm : m t = some d) :
    stepTok m ⟨false, true, a⟩ t = ⟨false, false, max d a⟩ := by
  simp [stepTok, hm, hc.1, hc.2.1, hc.2.2.1, hc.2.2.2, fOr]

/-- A connector token sets its flag. -/
theorem stepTok_conn (m : String → Option ℝ) (a : ℝ) (c : Conn) :
    stepTok m ⟨false, false, a⟩ (connTok c) =
      (match c with
       | Conn.AND => (⟨true, false, a⟩ : ScanSt)
       | Conn.OR => (⟨false, true, a⟩ : ScanSt)) := by
  cases c <;> simp [stepTok, connTok]

/-- Every token produced by `pairToks` is scanner-safe when every term
is. -/
theorem pairToks_goodTok (ps : List (Conn × String × ℝ))
    (h : ∀ q ∈ ps, GoodTok q.2.1) : ∀ u ∈ pairToks ps, GoodTok u := by
  induction ps with
  | nil => intro u hu; simp [pairToks] at hu
  | cons q qs ih =>
    intro u hu
    simp only [pairToks, List.mem_cons] at hu
    rcases hu with h1 | h2 | h3
    · subst h1
      cases q.1 <;> exact (by decide)
    · subst h2
      exact h q (List.mem_cons_self q qs)
    · exact ih (fun r hr => h r (List.mem_cons_of_mem q hr)) u h3

/-- Folding the scanner over a connector/term tail from a flag-free state
computes the strict left fold with `min` for AND and `max` for OR. -/
theorem foldl_stepTok_pairs (m : String → Option ℝ)
    (ps : List (Conn × String × ℝ)) :
    ∀ a : ℝ,
      (∀ q ∈ ps,
        (q.2.1 ≠ "AND" ∧ q.2.1 ≠ "and" ∧ q.2.1 ≠ "OR" ∧ q.2.1 ≠ "or") ∧
          m q.2.1 = some q.2.2) →
      (pairToks ps).foldl (stepTok m) ⟨false, false, a⟩ =
        ⟨false, false, ps.foldl (fun acc q =>
          match q.1 with
          | Conn.AND => min q.2.2 acc
          | Conn.OR => max q.2.2 acc) a⟩ := by
  induction ps with
  | nil => intro a _; rfl
  | cons q qs ih =>
    intro a hq
    obtain ⟨c, t, d⟩ := q
    have h1 := hq ⟨c, t, d⟩ (List.mem_cons_self _ _)
    have htl := fun r hr => hq r (List.mem_cons_of_mem _ hr)
    cases c with
    | AND =>
      show (connTok Conn.AND :: t :: pairToks qs).foldl (stepTok m) _ = _
      rw [List.foldl_cons, List.foldl_cons, stepTok_conn, stepTok_and m a t d h1.1 h1.2]
      rw [ih (min d a) htl]
      rfl
    | OR =>
      show (connTok Conn.OR :: t :: pairToks qs).foldl (stepTok m) _ = _
      rw [List.foldl_cons, List.foldl_cons, stepTok_conn, stepTok_or m a t d h1.1 h1.2]
      rw [ih (max d a) htl]
      rfl

/-- C1: on a rule whose tokens are separated by single spaces after the
leading `IF `, with every antecedent term holding a degree in the map,
`inferMamdani`'s per-rule evaluation computes the firing strength as a
strict left-to-right fold with no operator precedence: the first term's
degree is the initial accumulator, a pending AND folds the next degree in
via `min`, a pending OR via `max`. -/
theorem inferMamdani_left_fold (m : String → Option ℝ)
    (t0 out : String) (d0 : ℝ) (ps : List (Conn × String × ℝ))
    (h0g : GoodTok t0)
    (h0c : t0 ≠ "AND" ∧ t0 ≠ "and" ∧ t0 ≠ "OR" ∧ t0 ≠ "or")
    (h0m : m t0 = some d0)
    (hps : ∀ q ∈ ps,
      (GoodTok q.2.1 ∧
        (q.2.1 ≠ "AND" ∧ q.2.1 ≠ "and" ∧ q.2.1 ≠ "OR" ∧ q.2.1 ≠ "or")) ∧
        m q.2.1 = some q.2.2)
    (hthen : m ("THEN") = none) :
    evalRule m (mkRule (t0 :: pairToks ps) out) =
      some (out, ps.foldl (fun acc q =>
        match q.1 with
        | Conn.AND => min q.2.2 acc
        | Conn.OR => max q.2.2 acc) d0) := by
  have hg : ∀ t ∈ t0 :: pairToks ps, GoodTok t := by
    intro t ht
    rcases List.mem_cons.mp ht with h | h
    · exact h ▸ h0g
    · exact pairToks_goodTok ps (fun q hq => (hps q hq).1.1) t h
  rw [evalRule_mkRule m _ out hg]
  rw [List.foldl_cons, stepTok_first m 0 t0 d0 h0c h0m]
  rw [foldl_stepTok_pairs m ps d0 (fun q hq => ⟨(hps q hq).1.2, (hps q hq).2⟩)]
  rw [stepTok_unknown m _ ("THEN") (by decide) hthen]

/-- Witness for C1 — the claim's own example: with degrees A=0.2, B=0.9,
C=0.4, the rule `IF A AND B OR C THEN X` fires at
max(0.4, min(0.9, 0.2)) = 0.4. -/
theorem inferMamdani_left_fold_witness :
    mC1 ("A") = some 0.2 ∧ mC1 ("THEN") = none ∧
    evalRule mC1 ("IF A AND B OR C THEN X") = some (("X"), 0.4) := by
  refine ⟨rfl, rfl, ?_⟩
  have h := inferMamdani_left_fold mC1 ("A") ("X") 0.2
      [(Conn.AND, ("B"), 0.9), (Conn.OR, ("C"), 0.4)]
      (by decide) (by decide) rfl
      (by
        intro q hq
        simp only [List.mem_cons, List.not_mem_nil, or_false] at hq
        rcases hq with h | h <;> subst h <;>
          exact ⟨⟨by decide, by decide⟩, rfl⟩)
      rfl
  have hrule : mkRule [("A"), ("AND"), ("B"), ("OR"), ("C")] ("X") =
      ("IF A AND B OR C THEN X") := by decide
  rw [show mkRule (("A") :: pairToks [(Conn.AND, ("B"), 0.9), (Conn.OR, ("C"), 0.4)]) ("X") =
      mkRule [("A"), ("AND"), ("B"), ("OR"), ("C")] ("X") from rfl, hrule] at h
  rw [h]
  have : max (0.4 : ℝ) (min 0.9 0.2) = 0.4 := by
    rw [min_def, max_def]
    norm_num
  simp only [List.foldl_cons, List.foldl_nil]
  rw [this]

/-- C3: an antecedent term whose fuzzy-set name is absent from the degree
map does not abort the rule and is a no-op on the fold state: evaluating
the rule equals evaluating the same rule with that term removed from the
token stream, at any position — including the first — and the evaluation
is defined (no out-of-bounds, no error). -/
theorem unknown_term_skipped (m : String → Option ℝ)
    (toks₁ toks₂ : List String) (u out : String)
    (h₁ : ∀ t ∈ toks₁, GoodTok t) (h₂ : ∀ t ∈ toks₂, GoodTok t)
    (hu : GoodTok u)
    (huc : u ≠ "AND" ∧ u ≠ "and" ∧ u ≠ "OR" ∧ u ≠ "or")
    (hum : m u = none) :
    evalRule m (mkRule (toks₁ ++ u :: toks₂) out) =
      evalRule m (mkRule (toks₁ ++ toks₂) out) ∧
    (evalRule m (mkRule (toks₁ ++ u :: toks₂) out)).isSome := by
  have hgall : ∀ t ∈ toks₁ ++ u :: toks₂, GoodTok t := by
    intro t ht
    rcases List.mem_append.mp ht with h | h
    · exact h₁ t h
    · rcases List.mem_cons.mp h with h | h
      · exact h ▸ hu
      · exact h₂ t h
  have hgall' : ∀ t ∈ toks₁ ++ toks₂, GoodTok t := by
    intro t ht
    rcases List.mem_append.mp ht with h | h
    · exact h₁ t h
    · exact h₂ t h
  have hfold : (toks₁ ++ u :: toks₂).foldl (stepTok m) ⟨false, false, 0⟩ =
      (toks₁ ++ toks₂).foldl (stepTok m) ⟨false, false, 0⟩ := by
    rw [List.foldl_append, List.foldl_append, List.foldl_cons,
      stepTok_unknown m _ u huc hum]
  constructor
  · rw [evalRule_mkRule m _ out hgall, evalRule_mkRule m _ out hgall', hfold]
  · rw [evalRule_mkRule m _ out hgall]
    rfl

/-- Witness for C3: the unknown first term `U` of `IF U AND B THEN X` is
skipped, so the rule evaluates exactly like `IF AND B THEN X`. -/
theorem unknown_term_skipped_witness :
    mC3 ("U") = none ∧
    evalRule mC3 (mkRule [("U"), ("AND"), ("B")] ("X")) =
      evalRule mC3 (mkRule [("AND"), ("B")] ("X")) ∧
    (evalRule mC3 (mkRule [("U"), ("AND"), ("B")] ("X"))).isSome := by
  refine ⟨rfl, ?_⟩
  exact unknown_term_skipped mC3 [] [("AND"), ("B")] ("U") ("X")
    (by intro t ht; simp at ht)
    (by
      intro t ht
      simp only [List.mem_cons, List.not_mem_nil, or_false] at ht
      rcases ht with h | h <;> subst h <;> decide)
    (by decide) (by decide) rfl

/-- C4 (code-bug evidence): on the THEN-less rule line `IF A B` the
scanner's inner loop runs past the end of the string — `rule[size()]`
yields `'\0'`, which is not a space, and the next access is out of
bounds.  In the model the whole inference call collapses to `none`
instead of the in-bounds degenerate result the claim describes. -/
theorem malformed_rule_out_of_bounds :
    inferMamdani (fun _ => none) [("IF A B")] = none := rfl

/-- Normal form of one aggregation step: the current set becomes the
pair's key, the running maximum restarts at 0 on a key change, and the
output map records the new running maximum under that key. -/
theorem aggStep_eq (cur : String) (mx : ℝ) (out : String → Option ℝ)
    (p : String × ℝ) :
    aggStep (cur, mx, out) p =
      (p.1, max (if p.1 = cur then mx else 0) p.2,
       fun k => if k = p.1 then some (max (if p.1 = cur then mx else 0) p.2)
         else out k) := by
  by_cases h : p.1 = cur
  · simp [aggStep, h]
  · simp [aggStep, h]

/-- Loop invariant of the aggregation pass over a key-sorted pair list:
starting from a state whose pending (currentSet, maximum) entry is already
recorded in the output map, the final lookup returns the per-key maximum
(seeded with the pending maximum for the current key, 0 for new keys), and
leaves other keys untouched. -/
theorem aggFold_loop (pairs : List (String × ℝ)) :
    ∀ (cur : String) (mx : ℝ) (out : String → Option ℝ),
      pairs.Pairwise (fun p q => p.1 ≤ q.1) →
      (∀ p ∈ pairs, cur ≤ p.1) →
      out cur = some mx →
      ∀ k, aggLookup (pairs.foldl aggStep (cur, mx, out)) k =
        if k ∈ pairs.map Prod.fst then
          some (((pairs.filter fun p => p.1 = k).map Prod.snd).foldl max
            (if k = cur then mx else 0))
        else out k := by
  induction pairs with
  | nil =>
    intro cur mx out _ _ hinv k
    simp only [List.foldl_nil, List.map_nil, List.not_mem_nil, if_false,
      aggLookup]
    by_cases h : k = cur
    · subst h
      simp [hinv]
    · simp [h]
  | cons p rest ih =>
    intro cur mx out hsort hcur hinv k
    rw [List.foldl_cons, aggStep_eq]
    have hsort' := (List.pairwise_cons.mp hsort).2
    have hhead := (List.pairwise_cons.mp hsort).1
    have ih' := ih p.1 (max (if p.1 = cur then mx else 0) p.2)
      (fun k' => if k' = p.1 then
          some (max (if p.1 = cur then mx else 0) p.2) else out k')
      hsort' hhead (by simp)
    rw [ih' k]
    by_cases hk : k = p.1
    · have hmemhead : k ∈ (p :: rest).map Prod.fst := by
        simp [hk]
      rw [if_pos hmemhead]
      have hfc : ((p :: rest).filter fun q => q.1 = k) =
          p :: (rest.filter fun q => q.1 = k) := by
        rw [List.filter_cons, if_pos (by simp [hk])]
      rw [hfc, List.map_cons, List.foldl_cons]
      by_cases hmem : k ∈ rest.map Prod.fst
      · rw [if_pos hmem, if_pos hk, hk]
      · rw [if_neg hmem]
        have hfe : (rest.filter fun q => q.1 = k) = [] := by
          rw [List.filter_eq_nil_iff]
          intro q hq hqk
          exact hmem (List.mem_map.mpr ⟨q, hq, by simpa using hqk⟩)
        rw [hfe, List.map_nil, List.foldl_nil]
        simp [hk]
    · have hmemiff : (k ∈ (p :: rest).map Prod.fst) ↔ (k ∈ rest.map Prod.fst) := by
        simp [hk]
      have hfc : ((p :: rest).filter fun q => q.1 = k) =
          rest.filter fun q => q.1 = k := by
        rw [List.filter_cons, if_neg (by simp [Ne.symm hk])]
      by_cases hmem : k ∈ rest.map Prod.fst
      · rw [if_pos hmem, if_pos (hmemiff.mpr hmem), hfc]
        have hkcur : k ≠ cur := by
          intro hkc
          obtain ⟨q, hq, hqk⟩ := List.mem_map.mp hmem
          have h1 : p.1 ≤ q.1 := hhead q hq
          have h2 : cur ≤ p.1 := hcur p (List.mem_cons_self p rest)
          have h2' : k ≤ p.1 := by rw [hkc]; exact h2
          have h1' : p.1 ≤ k := by
            calc p.1 ≤ q.1 := h1
            _ = k := hqk
          exact hk (le_antisymm h2' h1')
        rw [if_neg hk, if_neg hkcur]
      · rw [if_neg hmem, if_neg (fun hc => hmem (hmemiff.mp hc))]
        simp only [if_neg hk]

/-- The full aggregation pass over a key-sorted pair list: every key gets
the maximum of its values (seeded with the loop's 0), and — because of the
final unconditional insertion — an empty list still yields the entry
`"" ↦ 0`. -/
theorem aggregate_spec (pairs : List (String × ℝ))
    (hsort : pairs.Pairwise fun p q => p.1 ≤ q.1) (k : String) :
    aggLookup (aggFold pairs) k =
      if k ∈ pairs.map Prod.fst then
        some (((pairs.filter fun p => p.1 = k).map Prod.snd).foldl max 0)
      else if pairs = [] ∧ k = ("") then some 0 else none := by
  cases pairs with
  | nil =>
    simp only [aggFold, List.foldl_nil, aggLookup, List.map_nil,
      List.not_mem_nil, if_false]
    by_cases h : k = ("")
    · simp [h]
    · simp [h]
  | cons p rest =>
    unfold aggFold
    rw [List.foldl_cons, aggStep_eq]
    have hM : max (if p.1 = ("") then (0:ℝ) else 0) p.2 = max 0 p.2 := by
      by_cases h : p.1 = ("") <;> simp [h]
    rw [hM]
    have hsort' := (List.pairwise_cons.mp hsort).2
    have hhead := (List.pairwise_cons.mp hsort).1
    have hloop := aggFold_loop rest p.1 (max 0 p.2)
      (fun k' => if k' = p.1 then some (max 0 p.2) else none)
      hsort' hhead (by simp)
    rw [hloop k]
    have hne : (p :: rest : List (String × ℝ)) ≠ [] := by simp
    by_cases hk : k = p.1
    · have hmemhead : k ∈ (p :: rest).map Prod.fst := by simp [hk]
      rw [if_pos hmemhead]
      have hfc : ((p :: rest).filter fun q => q.1 = k) =
          p :: (rest.filter fun q => q.1 = k) := by
        rw [List.filter_cons, if_pos (by simp [hk])]
      rw [hfc, List.map_cons, List.foldl_cons]
      by_cases hmem : k ∈ rest.map Prod.fst
      · rw [if_pos hmem, if_pos hk]
      · rw [if_neg hmem]
        have hfe : (rest.filter fun q => q.1 = k) = [] := by
          rw [List.filter_eq_nil_iff]
          intro q hq hqk
          exact hmem (List.mem_map.mpr ⟨q, hq, by simpa using hqk⟩)
        rw [hfe, List.map_nil, List.foldl_nil]
        simp [hk]
    · have hmemiff : (k ∈ (p :: rest).map Prod.fst) ↔ (k ∈ rest.map Prod.fst) := by
        simp [hk]
      have hfc : ((p :: rest).filter fun q => q.1 = k) =
          rest.filter fun q => q.1 = k := by
        rw [List.filter_cons, if_neg (by simp [Ne.symm hk])]
      by_cases hmem : k ∈ rest.map Prod.fst
      · rw [if_pos hmem, if_pos (hmemiff.mpr hmem), hfc, if_neg hk]
      · rw [if_neg hmem, if_neg (fun hc => hmem (hmemiff.mp hc)),
          if_neg (fun hc => hne hc.1)]
        simp [hk]

/-- A left `max`-fold is invariant under permutation of the list. -/
theorem foldl_max_perm {l₁ l₂ : List ℝ} (h : l₁.Perm l₂) :
    ∀ a : ℝ, l₁.foldl max a = l₂.foldl max a := by
  induction h with
  | nil => intro a; rfl
  | cons x _ ih => intro a; rw [List.foldl_cons, List.foldl_cons, ih]
  | swap x y l =>
    intro a
    rw [List.foldl_cons, List.foldl_cons, List.foldl_cons, List.foldl_cons,
      sup_right_comm]
  | trans _ _ ih₁ ih₂ => intro a; rw [ih₁, ih₂]

/-- One unfolding step of the outer scan when the token read runs out of
bounds. -/
theorem scanAux_none (m : String → Option ℝ) (fuel : ℕ) (st : ScanSt)
    (l : List Char) (hl : readTok2 l = none) :
    scanAux m (fuel + 1) st l = none := by
  simp only [scanAux, hl]

/-- `stepTok` keeps the accumulator non-negative when every degree in the
map is non-negative. -/
theorem stepTok_nonneg (m : String → Option ℝ)
    (hm : ∀ s v, m s = some v → 0 ≤ v) (st : ScanSt) (t : String)
    (h : 0 ≤ st.accum) : 0 ≤ (stepTok m st t).accum := by
  unfold stepTok
  by_cases h1 : t = "AND" ∨ t = "and"
  · simp [h1, h]
  · by_cases h2 : t = "OR" ∨ t = "or"
    · simp [h1, h2, h]
    · cases hmv : m t with
      | none => simp [h1, h2, hmv, h]
      | some v =>
        have hv := hm t v hmv
        by_cases ha : st.andFlag
        · simp [h1, h2, hmv, ha, fAnd]
          exact ⟨hv, h⟩
        · by_cases ho : st.orFlag
          · simp [h1, h2, hmv, ha, ho, fOr]
            exact Or.inl hv
          · simp [h1, h2, hmv, ha, ho, hv]

/-- The scan keeps the accumulator non-negative. -/
theorem scanAux_nonneg (m : String → Option ℝ)
    (hm : ∀ s v, m s = some v → 0 ≤ v) :
    ∀ (fuel : ℕ) (l : List Char) (st : ScanSt), 0 ≤ st.accum →
      ∀ (st' : ScanSt) (rest : List Char),
        scanAux m fuel st l = some (st', rest) → 0 ≤ st'.accum := by
  intro fuel
  induction fuel with
  | zero =>
    intro l st _ st' rest h
    exact absurd h (by simp [scanAux])
  | succ f ih =>
    intro l st hst st' rest hscan
    cases hrt : readTok2 l with
    | none =>
      rw [scanAux_none m f st l hrt] at hscan
      exact absurd hscan (by simp)
    | some pr =>
      obtain ⟨t, rest'⟩ := pr
      rw [scanAux_one m f st t rest' l hrt] at hscan
      by_cases hth : String.mk t = "THEN" ∨ String.mk t = "then"
      · rw [if_pos hth] at hscan
        simp only [Option.some.injEq, Prod.mk.injEq] at hscan
        exact hscan.1 ▸ stepTok_nonneg m hm st _ hst
      · rw [if_neg hth] at hscan
        exact ih rest' (stepTok m st (String.mk t))
          (stepTok_nonneg m hm st _ hst) st' rest hscan

/-- A rule's firing strength is non-negative when the degree map is. -/
theorem evalRule_nonneg (m : String → Option ℝ)
    (hm : ∀ s v, m s = some v → 0 ≤ v) (r o : String) (v : ℝ)
    (h : evalRule m r = some (o, v)) : 0 ≤ v := by
  unfold evalRule at h
  cases hscan : scanAux m (r.length + 1) ⟨false, false, 0⟩ (r.data.drop 3) with
  | none => rw [hscan] at h; exact absurd h (by simp)
  | some pr =>
    obtain ⟨st, rest⟩ := pr
    rw [hscan] at h
    simp only [Option.some.injEq, Prod.mk.injEq] at h
    have := scanAux_nonneg m hm (r.length + 1) (r.data.drop 3)
      ⟨false, false, 0⟩ le_rfl st rest hscan
    exact h.2 ▸ this

/-- Every collected firing strength is non-negative when the degree map
is. -/
theorem evalRules_nonneg (m : String → Option ℝ)
    (hm : ∀ s v, m s = some v → 0 ≤ v) :
    ∀ (rules : List String) (pairs : List (String × ℝ)),
      evalRules m rules = some pairs → ∀ p ∈ pairs, 0 ≤ p.2 := by
  intro rules
  induction rules with
  | nil =>
    intro pairs h p hp
    simp only [evalRules, Option.some.injEq] at h
    subst h
    simp at hp
  | cons r rs ih =>
    intro pairs h p hp
    simp only [evalRules] at h
    cases he : evalRule m r with
    | none => rw [he] at h; exact absurd h (by simp)
    | some q =>
      rw [he] at h
      cases hrs : evalRules m rs with
      | none => rw [hrs] at h; exact absurd h (by simp)
      | some ps =>
        rw [hrs] at h
        simp only [Option.map_some', Option.some.injEq] at h
        subst h
        rcases List.mem_cons.mp hp with h | h
        · subst h
          exact evalRule_nonneg m hm r p.1 p.2 (by simpa using he)
        · exact ih ps hrs p h

/-- Permuting the rule list permutes the collected (consequent, strength)
pairs. -/
theorem evalRules_perm (m : String → Option ℝ) :
    ∀ {rules rules' : List String}, rules.Perm rules' →
      ∀ {pairs : List (String × ℝ)}, evalRules m rules = some pairs →
        ∃ pairs', evalRules m rules' = some pairs' ∧ pairs.Perm pairs' := by
  intro rules rules' h
  induction h with
  | nil =>
    intro pairs h
    exact ⟨pairs, h, List.Perm.refl _⟩
  | @cons x l₁ l₂ hl ih =>
    intro pairs hp
    simp only [evalRules] at hp ⊢
    cases he : evalRule m x with
    | none => rw [he] at hp; exact absurd hp (by simp)
    | some q =>
      rw [he] at hp
      simp only at hp ⊢
      cases h1 : evalRules m l₁ with
      | none => rw [h1] at hp; exact absurd hp (by simp)
      | some ps =>
        rw [h1] at hp
        simp only [Option.map_some', Option.some.injEq] at hp
        subst hp
        obtain ⟨ps', hps', hperm⟩ := ih h1
        rw [hps']
        exact ⟨q :: ps', by simp, hperm.cons q⟩
  | @swap x y l =>
    intro pairs hp
    cases hy : evalRule m y with
    | none => simp [evalRules, hy] at hp
    | some qy =>
      cases hx : evalRule m x with
      | none => simp [evalRules, hy, hx] at hp
      | some qx =>
        cases hl : evalRules m l with
        | none => simp [evalRules, hy, hx, hl] at hp
        | some ps =>
          simp only [evalRules, hy, hx, hl, Option.map_some',
            Option.some.injEq] at hp
          subst hp
          refine ⟨qx :: qy :: ps, ?_, List.Perm.swap qx qy ps⟩
          simp only [evalRules, hy, hx, hl, Option.map_some']
  | trans h₁ h₂ ih₁ ih₂ =>
    intro pairs hp
    obtain ⟨ps₁, hp1, hperm1⟩ := ih₁ hp
    obtain ⟨ps₂, hp2, hperm2⟩ := ih₂ hp1
    exact ⟨ps₂, hp2, hperm1.trans hperm2⟩

/-- C2: for every rule list and every (non-negative) degree map on which
all rules evaluate, `inferMamdani` assigns each output name appearing as a
consequent the maximum of the firing strengths of all rules naming it, and
this per-name result is unchanged under any permutation of the rule
list. -/
theorem inferMamdani_max_aggregation
    (m : String → Option ℝ) (rules rules' : List String)
    (pairs : List (String × ℝ)) (k : String)
    (hm : ∀ s v, m s = some v → 0 ≤ v)
    (hev : evalRules m rules = some pairs)
    (hk : k ∈ pairs.map Prod.fst)
    (hperm : rules.Perm rules') :
    ∃ out out',
      inferMamdani m rules = some out ∧
      inferMamdani m rules' = some out' ∧
      out k = some (((pairs.filter fun p => p.1 = k).map Prod.snd).foldl max
        (((pairs.filter fun p => p.1 = k).map Prod.snd).headI)) ∧
      out' k = out k := by
  obtain ⟨pairs', hev', hpp⟩ := evalRules_perm m hperm hev
  have key : ∀ ps : List (String × ℝ), ps.Perm pairs →
      aggLookup (aggFold (sortPairs ps)) k =
        some (((pairs.filter fun p => p.1 = k).map Prod.snd).foldl max 0) := by
    intro ps hp₀
    have hsorted : (sortPairs ps).Pairwise fun p q => p.1 ≤ q.1 :=
      List.sorted_insertionSort _ ps
    have hpermS : (sortPairs ps).Perm pairs :=
      (List.perm_insertionSort _ ps).trans hp₀
    have hkmem : k ∈ (sortPairs ps).map Prod.fst :=
      ((hpermS.map Prod.fst).mem_iff).mpr hk
    rw [aggregate_spec _ hsorted k, if_pos hkmem]
    have hfp := (hpermS.filter (fun p => p.1 = k)).map Prod.snd
    rw [foldl_max_perm hfp 0]
  have hvs_ne : ((pairs.filter fun p => p.1 = k).map Prod.snd) ≠ [] := by
    obtain ⟨q, hq, hqk⟩ := List.mem_map.mp hk
    have hqf : q ∈ pairs.filter fun p => p.1 = k :=
      List.mem_filter.mpr ⟨hq, by simpa using hqk⟩
    intro hnil
    have hmm := List.mem_map_of_mem Prod.snd hqf
    rw [hnil] at hmm
    simp at hmm
  have hall : ∀ v ∈ (pairs.filter fun p => p.1 = k).map Prod.snd, 0 ≤ v := by
    intro v hv
    obtain ⟨q, hq, rfl⟩ := List.mem_map.mp hv
    exact evalRules_nonneg m hm rules pairs hev q (List.mem_filter.mp hq).1
  have hzero_head : ((pairs.filter fun p => p.1 = k).map Prod.snd).foldl max 0 =
      ((pairs.filter fun p => p.1 = k).map Prod.snd).foldl max
        ((pairs.filter fun p => p.1 = k).map Prod.snd).headI := by
    rcases hvl : (pairs.filter fun p => p.1 = k).map Prod.snd with _ | ⟨v, vs⟩
    · exact absurd hvl hvs_ne
    · rw [hvl, List.foldl_cons, List.foldl_cons, List.headI_cons]
      have h0v : max 0 v = v :=
        max_eq_right (hall v (by rw [hvl]; exact List.mem_cons_self v vs))
      rw [h0v, max_self]
  have hout : inferMamdani m rules = some (aggLookup (aggFold (sortPairs pairs))) := by
    simp [inferMamdani, hev]
  have hout' : inferMamdani m rules' = some (aggLookup (aggFold (sortPairs pairs'))) := by
    simp [inferMamdani, hev']
  refine ⟨_, _, hout, hout', ?_, ?_⟩
  · rw [key pairs (List.Perm.refl pairs), hzero_head]
  · rw [key pairs' hpp.symm, key pairs (List.Perm.refl pairs)]

/-- Witness for C2: two rules both concluding `Tip_Low` with strengths
0.3 and 0.6 aggregate to `Tip_Low ↦ max`, and swapping the rules leaves
the result unchanged. -/
theorem inferMamdani_max_aggregation_witness :
    (evalRules mC2w rulesC2w = some pairsC2w ∧
      ("Tip_Low") ∈ pairsC2w.map Prod.fst ∧ rulesC2w.Perm rulesC2w') ∧
    ∃ out out',
      inferMamdani mC2w rulesC2w = some out ∧
      inferMamdani mC2w rulesC2w' = some out' ∧
      out ("Tip_Low") = some
        (((pairsC2w.filter fun p => p.1 = ("Tip_Low")).map Prod.snd).foldl max
          (((pairsC2w.filter fun p => p.1 = ("Tip_Low")).map Prod.snd).headI)) ∧
      out' ("Tip_Low") = out ("Tip_Low") := by
  have hev : evalRules mC2w rulesC2w = some pairsC2w := rfl
  have hperm : rulesC2w.Perm rulesC2w' := List.Perm.swap _ _ _
  have hk : ("Tip_Low") ∈ pairsC2w.map Prod.fst := by simp [pairsC2w]
  have hm : ∀ s v, mC2w s = some v → 0 ≤ v := by
    intro s v h
    unfold mC2w at h
    split_ifs at h
    all_goals simp only [Option.some.injEq] at h
    all_goals subst h
    all_goals norm_num
  exact ⟨⟨hev, hk, hperm⟩,
    inferMamdani_max_aggregation mC2w rulesC2w rulesC2w' pairsC2w ("Tip_Low")
      hm hev hk hperm⟩

/-- C6 counterexample: on an empty rule list the returned map is not
empty — the final unconditional `output[currentSet] = maximum;` inserts
the entry `"" ↦ 0`. -/
theorem empty_rules_counterexample :
    (inferMamdani (fun _ => none) []).bind (fun out => out ("")) = some 0 := rfl

/-- C6 amended: on an empty rule list `inferMamdani` raises no error but
returns the singleton map `{"" ↦ 0}` (an artifact of the final
unconditional insertion), not an empty map. -/
theorem empty_rules_amended (m : String → Option ℝ) :
    inferMamdani m [] = some (fun k => if k = ("") then some (0:ℝ) else none) := rfl
